import Mathlib

/-!
Verification development for the pdlfs-common ectrie succinct trie codec
(src/ectrie/trie.h).  The codec recursively encodes a sorted key array as
a binary partition tree and decodes ranks from the resulting bitstream.

The trie itself (constructor weight loop, encode_rec, locate_rec,
skip_rec) is embedded from src/src/ectrie/trie.h.  The helper headers it
includes (bit_access.h, sign_interleave.h, exp_golomb.h, huffman.h) are
not part of the provided sources; the corresponding definitions below are
modelled from the specification and marked as such in their doc comments.

Bitstreams are lists of booleans.  The C++ decode cursor (a byte buffer
plus a mutable bit position) is embedded as consume-from-the-front list
passing: a cursor standing at position p in stream s corresponds to the
suffix s.drop p, and "the cursor advanced past exactly the bits c" is
expressed as a decoder mapping c ++ rest to rest.  C++ assert failures on
invalid input and reads past the end of the buffer are embedded as none.
-/

namespace Ectrie

/-- Modelled from the spec: bit_access::get (bit_access.h is absent from
the sources).  Extracts one bit of a fixed-length key, MSB-first within
each byte, byte 0 first (spec 4.1).  A key is a list of byte values. -/
def bitGet (key : List Nat) (i : Nat) : Bool :=
  ((key.getD (i / 8) 0) >>> (7 - i % 8)) % 2 == 1

/-- Modelled from the spec: sign_interleave::encode (sign_interleave.h is
absent from the sources).  Zigzag bijection, non-negative v to 2v,
negative v to -2v-1 (spec 4.2). -/
def signEncode (v : Int) : Nat :=
  if 0 ≤ v then (2 * v).toNat else (-2 * v - 1).toNat

/-- Modelled from the spec: sign_interleave::decode, inverse zigzag. -/
def signDecode (u : Nat) : Int :=
  if u % 2 = 0 then ((u / 2 : Nat) : Int) else -((u / 2 : Nat) : Int) - 1

/-- MSB-first binary digits of m (empty for 0). -/
def natBits (m : Nat) : List Bool :=
  if h : m = 0 then [] else natBits (m / 2) ++ [m % 2 == 1]
decreasing_by exact Nat.div_lt_self (Nat.pos_of_ne_zero h) (by norm_num)

/-- Modelled from the spec: exp_golomb::encode (exp_golomb.h is absent
from the sources).  Order-0 exponential-Golomb code: for v, the binary
digits of v+1 preceded by length-1 zero bits; self-delimiting,
unary-prefixed, defined for every non-negative integer (spec 4.3). -/
def golombEncode (v : Nat) : List Bool :=
  List.replicate ((natBits (v + 1)).length - 1) false ++ natBits (v + 1)

/-- Length of the run of leading false bits. -/
def countFalse : List Bool → Nat
  | [] => 0
  | b :: bs => if b then 0 else countFalse bs + 1

/-- Read k bits MSB-first into an accumulator; none if the stream is
too short. -/
def readBits (acc k : Nat) (bs : List Bool) : Option (Nat × List Bool) :=
  match k, bs with
  | 0, bs => some (acc, bs)
  | _ + 1, [] => none
  | k + 1, b :: bs => readBits (2 * acc + cond b 1 0) k bs

/-- Modelled from the spec: exp_golomb::decode, the inverse of
golombEncode, consuming exactly the bits the encoder wrote. -/
def golombDecode (bs : List Bool) : Option (Nat × List Bool) :=
  let z := countFalse bs
  match readBits 0 (z + 1) (bs.drop z) with
  | none => none
  | some (m, rest) => some (m - 1, rest)

/-- Binary tree of symbols, the shape behind a Huffman code table. -/
inductive HTree where
  | leaf (sym : Nat)
  | node (l r : HTree)

/-- Multiset (as a list) of the symbols at the leaves of a tree. -/
def leaves : HTree → List Nat
  | .leaf s => [s]
  | .node l r => leaves l ++ leaves r

/-- Modelled from the spec: huffman::encode (huffman.h is absent from
the sources).  The codeword of a symbol is its path in the code tree,
false for left, true for right; none when the symbol has no leaf. -/
def encodeTree : HTree → Nat → Option (List Bool)
  | .leaf s, k => if s = k then some [] else none
  | .node l r, k =>
    match encodeTree l k with
    | some c => some (false :: c)
    | none =>
      match encodeTree r k with
      | some c => some (true :: c)
      | none => none

/-- Modelled from the spec: huffman::decode.  Walks the code tree along
the stream and returns the symbol of the leaf reached together with the
unread rest; none if the stream ends inside the tree. -/
def decodeTree : HTree → List Bool → Option (Nat × List Bool)
  | .leaf s, bs => some (s, bs)
  | .node _ _, [] => none
  | .node l r, b :: bs =>
    match b with
    | false => decodeTree l bs
    | true => decodeTree r bs

/-- First node of minimal weight together with the remaining nodes. -/
def pickMin : List (Nat × HTree) → Option ((Nat × HTree) × List (Nat × HTree))
  | [] => none
  | x :: xs =>
    match pickMin xs with
    | none => some (x, [])
    | some (m, rest) => if x.1 ≤ m.1 then some (x, xs) else some (m, x :: rest)

/-- Modelled from the spec: one step of the standard Huffman
construction, merging the two lowest-weight nodes into a parent
(spec 4.4); identity on lists with fewer than two nodes. -/
def hStep (l : List (Nat × HTree)) : List (Nat × HTree) :=
  match pickMin l with
  | none => l
  | some (a, l1) =>
    match pickMin l1 with
    | none => l
    | some (b, l2) => (a.1 + b.1, HTree.node a.2 b.2) :: l2

/-- Iterate hStep. -/
def hRun : Nat → List (Nat × HTree) → List (Nat × HTree)
  | 0, l => l
  | k + 1, l => hRun k (hStep l)

/-- Modelled from the spec: huffman_tree_generator::generate — run the
merge step until a single tree remains. -/
def hBuild (l : List (Nat × HTree)) : Option HTree :=
  match hRun l.length l with
  | [] => none
  | p :: _ => some p.2

/-- All leaf symbols over a list of weighted nodes. -/
def pool : List (Nat × HTree) → List Nat
  | [] => []
  | p :: ps => leaves p.2 ++ pool ps

/-- Initial forest: one leaf per symbol, numbered from k upward. -/
def initNodes : List Nat → Nat → List (Nat × HTree)
  | [], _ => []
  | w :: ws, k => (w, HTree.leaf k) :: initNodes ws (k + 1)

/-- One step of the incremental binomial-weight computation in the trie
constructor: v = v * (n - k + 1) / k in 64-bit unsigned arithmetic
(trie.h lines 37 and 48-49). -/
def binomStep (n v k : Nat) : Nat := v * (n - k + 1) % 2 ^ 64 / k

/-- The running value v after k steps of the constructor loop (v starts
at 1, trie.h lines 35-37). -/
def binomVal (n : Nat) : Nat → Nat
  | 0 => 1
  | k + 1 => binomStep n (binomVal n k) (k + 1)

/-- Non-weak-mode weight row gen[0..n] for subtree size n
(trie.h lines 33-37). -/
def binomRow (n : Nat) : List Nat := (List.range (n + 1)).map (binomVal n)

/-- Weak-mode weight row gen[0..n-1]: the no-split weight 2 at symbol 0,
then the loop values for k = 1..n-1 (trie.h lines 44-49). -/
def weakRow (n : Nat) : List Nat :=
  2 :: (List.range (n - 1)).map (fun k => binomVal n (k + 1))

/-- Weights used for the Huffman table of subtree size n
(trie.h lines 31-55). -/
def huffWeights (weak : Bool) (n : Nat) : List Nat :=
  if weak then weakRow n else binomRow n

/-- The Huffman code tree the trie constructor builds for subtree size n
(trie.h huff_[n-2]). -/
def huffTable (weak : Bool) (n : Nat) : HTree :=
  match hBuild (initNodes (huffWeights weak n) 0) with
  | some t => t
  | none => HTree.leaf 0

/-- Symbol emission for the left subtree size (trie.h lines 127-134):
Huffman codeword of left for n within the Huffman coding limit L,
otherwise the exponential-Golomb code of the sign-interleaved deviation
left - n/2. -/
def symEncode (weak : Bool) (L n left : Nat) : Option (List Bool) :=
  if n ≤ L then encodeTree (huffTable weak n) left
  else some (golombEncode (signEncode ((left : Int) - ((n / 2 : Nat) : Int))))

/-- Symbol decoding for the left subtree size (trie.h lines 158-167):
Huffman decode for n within the limit L, otherwise Golomb decode plus
sign de-interleave plus n/2.  A deviation driving the unsigned value
negative is an out-of-range result (none). -/
def decodeLeft (weak : Bool) (L n : Nat) (bs : List Bool) :
    Option (Nat × List Bool) :=
  if n ≤ L then decodeTree (huffTable weak n) bs
  else
    match golombDecode bs with
    | none => none
    | some (g, rest) =>
      let v : Int := signDecode g + ((n / 2 : Nat) : Int)
      if v < 0 then none else some (v.toNat, rest)

/-- The scan for the number of keys on the left tree (trie.h lines
117-121): index of the first key in the range whose bit at depth is set,
or n when no key has it set. -/
def countLeft (arr : List (List Nat)) (off n depth : Nat) : Nat :=
  match n with
  | 0 => 0
  | m + 1 =>
    if bitGet (arr.getD off []) depth then 0
    else countLeft arr (off + 1) m depth + 1

/-- trie::encode_rec (trie.h lines 102-140).  fuel bounds the recursion
depth structurally; fuel key_len*8+1-depth always suffices because the
code refuses to recurse past depth key_len*8 (the duplicate-key assert,
embedded as none).  Appended output bits are returned. -/
def encode_rec (weak : Bool) (L : Nat) (arr : List (List Nat))
    (key_len : Nat) :
    Nat → Nat → Nat → Nat → Nat → Nat → Option (List Bool)
  | 0, _, _, _, _, _ => none
  | fuel + 1, off, n, dest_base, dest_keys_per_block, depth =>
    if n ≤ 1 then some []
    else if n ≤ dest_keys_per_block ∧
        (dest_base + off) / dest_keys_per_block =
          (dest_base + off + n - 1) / dest_keys_per_block then some []
    else if key_len * 8 ≤ depth then none
    else
      let left0 := countLeft arr off n depth
      let left := if weak ∧ left0 = n then 0 else left0
      (symEncode weak L n left).bind (fun s =>
        (encode_rec weak L arr key_len fuel off left dest_base
            dest_keys_per_block (depth + 1)).bind (fun x =>
          (encode_rec weak L arr key_len fuel (off + left) (n - left)
              dest_base dest_keys_per_block (depth + 1)).map
            (fun y => s ++ x ++ y)))

/-- trie::skip_rec (trie.h lines 185-215): decode-only traversal that
descends into both children to advance the cursor; it ignores the query
key and has no depth guard.  Returns the unread rest of the stream. -/
def skip_rec (weak : Bool) (L : Nat) (key_len : Nat) :
    Nat → List Bool → Nat → Nat → Nat → Nat → Nat → Option (List Bool)
  | 0, _, _, _, _, _, _ => none
  | fuel + 1, bs, off, n, dest_base, dest_keys_per_block, depth =>
    if n ≤ 1 then some bs
    else if n ≤ dest_keys_per_block ∧
        (dest_base + off) / dest_keys_per_block =
          (dest_base + off + n - 1) / dest_keys_per_block then some bs
    else
      match decodeLeft weak L n bs with
      | none => none
      | some (left, bs1) =>
        if n < left then none
        else
          (skip_rec weak L key_len fuel bs1 off left dest_base
              dest_keys_per_block (depth + 1)).bind (fun bs2 =>
            skip_rec weak L key_len fuel bs2 (off + left) (n - left)
              dest_base dest_keys_per_block (depth + 1))

/-- trie::locate_rec (trie.h lines 142-183).  Returns the rank
contribution together with the unread rest of the stream.  The decoded
left exceeding n (the corruption assert) is embedded as none, as is the
depth guard. -/
def locate_rec (weak : Bool) (L : Nat) (key_len : Nat) (key : List Nat) :
    Nat → List Bool → Nat → Nat → Nat → Nat → Nat →
      Option (Nat × List Bool)
  | 0, _, _, _, _, _, _ => none
  | fuel + 1, bs, off, n, dest_base, dest_keys_per_block, depth =>
    if n ≤ 1 then some (0, bs)
    else if n ≤ dest_keys_per_block ∧
        (dest_base + off) / dest_keys_per_block =
          (dest_base + off + n - 1) / dest_keys_per_block then some (0, bs)
    else if key_len * 8 ≤ depth then none
    else
      match decodeLeft weak L n bs with
      | none => none
      | some (left, bs1) =>
        if n < left then none
        else if !bitGet key depth && (!weak || (weak && left != 0)) then
          locate_rec weak L key_len key fuel bs1 off left dest_base
            dest_keys_per_block (depth + 1)
        else
          (skip_rec weak L key_len fuel bs1 off left dest_base
              dest_keys_per_block (depth + 1)).bind (fun bs2 =>
            (locate_rec weak L key_len key fuel bs2 (off + left)
                (n - left) dest_base dest_keys_per_block
                (depth + 1)).map (fun rb => (left + rb.1, rb.2)))

/-- Truncation-freedom along the encode recursion: true when the
k-perfect-hashing guard never fires on a sub-range of two or more keys,
so no block-uniform truncation merges distinct keys. -/
def noTruncF (weak : Bool) (arr : List (List Nat)) (key_len : Nat) :
    Nat → Nat → Nat → Nat → Nat → Nat → Bool
  | 0, _, _, _, _, _ => true
  | fuel + 1, off, n, dest_base, dest_keys_per_block, depth =>
    if n ≤ 1 then true
    else if n ≤ dest_keys_per_block ∧
        (dest_base + off) / dest_keys_per_block =
          (dest_base + off + n - 1) / dest_keys_per_block then false
    else if key_len * 8 ≤ depth then true
    else
      let left0 := countLeft arr off n depth
      let left := if weak ∧ left0 = n then 0 else left0
      noTruncF weak arr key_len fuel off left dest_base
          dest_keys_per_block (depth + 1) &&
        noTruncF weak arr key_len fuel (off + left) (n - left) dest_base
          dest_keys_per_block (depth + 1)

/-- Strict order of two keys in the MSB-first bit order the codec uses,
restricted to bit positions in [depth, key_len*8): some position j in
that window has bit 0 in a and bit 1 in b while all earlier window
positions agree. -/
def keyLt (a b : List Nat) (key_len depth : Nat) : Prop :=
  ∃ j, j < key_len * 8 ∧ depth ≤ j ∧ bitGet a j = false ∧
    bitGet b j = true ∧
    ∀ t, t < j → depth ≤ t → bitGet a t = bitGet b t

/-- The caller invariant on a range [off, off+n): keys strictly
ascending in the bit window starting at depth (sorted, and distinct
within key_len*8 bits). -/
def sortedRange (arr : List (List Nat)) (key_len off n depth : Nat) :
    Prop :=
  ∀ q, q < n → ∀ p, p < q →
    keyLt (arr.getD (off + p) []) (arr.getD (off + q) []) key_len depth

instance keyLt.instDecidable (a b : List Nat) (key_len depth : Nat) :
    Decidable (keyLt a b key_len depth) := by
  unfold keyLt
  infer_instance

instance sortedRange.instDecidable (arr : List (List Nat))
    (key_len off n depth : Nat) :
    Decidable (sortedRange arr key_len off n depth) := by
  unfold sortedRange
  infer_instance

/-- a is a (not necessarily proper) leading segment of b. -/
def IsPref (a b : List Bool) : Prop := ∃ t, a ++ t = b

/-- The four one-byte keys of the end-to-end example in the spec. -/
def exArr : List (List Nat) := [[0x00], [0x10], [0x80], [0x90]]

end Ectrie

namespace Ectrie

theorem signDecode_signEncode (v : Int) : signDecode (signEncode v) = v := by
  unfold signEncode signDecode
  by_cases hv : 0 ≤ v
  · rw [if_pos hv]
    have h2 : (2 * v).toNat = 2 * v.toNat := by omega
    rw [h2]
    have hmod : 2 * v.toNat % 2 = 0 := by omega
    rw [if_pos hmod]
    omega
  · rw [if_neg hv]
    have h2 : (-2 * v - 1).toNat = 2 * (-v).toNat - 1 := by omega
    have hpos : 1 ≤ (-v).toNat := by omega
    rw [h2]
    have hmod : ¬(2 * (-v).toNat - 1) % 2 = 0 := by omega
    rw [if_neg hmod]
    have hdiv : (2 * (-v).toNat - 1) / 2 = (-v).toNat - 1 := by omega
    rw [hdiv]
    omega

theorem natBits_head (m : Nat) (hm : 0 < m) : ∃ t, natBits m = true :: t := by
  induction m using Nat.strong_induction_on with
  | _ m ih =>
    rw [natBits, dif_neg (by omega)]
    by_cases h2 : m / 2 = 0
    · have h1 : m = 1 := by omega
      subst h1
      refine ⟨[], ?_⟩
      norm_num
      rw [natBits]
      simp
    · obtain ⟨t, ht⟩ :=
        ih (m / 2) (Nat.div_lt_self hm (by norm_num)) (Nat.pos_of_ne_zero h2)
      rw [ht]
      exact ⟨t ++ [m % 2 == 1], rfl⟩

theorem readBits_append (l : List Bool) :
    ∀ (acc : Nat) (rest : List Bool),
      readBits acc l.length (l ++ rest) =
        some (l.foldl (fun a b => 2 * a + cond b 1 0) acc, rest) := by
  induction l with
  | nil => intro acc rest; rfl
  | cons b t ih => intro acc rest; exact ih (2 * acc + cond b 1 0) rest

theorem foldl_natBits (m : Nat) :
    ∀ acc : Nat,
      (natBits m).foldl (fun a b => 2 * a + cond b 1 0) acc =
        acc * 2 ^ (natBits m).length + m := by
  induction m using Nat.strong_induction_on with
  | _ m ih =>
    intro acc
    by_cases hm : m = 0
    · subst hm
      rw [natBits]
      simp
    · rw [natBits, dif_neg hm]
      rw [List.foldl_append, List.length_append]
      rw [ih (m / 2) (Nat.div_lt_self (Nat.pos_of_ne_zero hm) (by norm_num))]
      simp only [List.foldl_cons, List.foldl_nil, List.length_cons,
        List.length_nil]
      have hcond : cond (m % 2 == 1) 1 0 = m % 2 := by
        rcases Nat.mod_two_eq_zero_or_one m with h | h <;> rw [h] <;> rfl
      rw [hcond, pow_succ]
      have := Nat.div_add_mod m 2
      ring_nf
      omega

theorem countFalse_replicate (k : Nat) (t : List Bool) :
    countFalse (List.replicate k false ++ true :: t) = k := by
  induction k with
  | zero => rfl
  | succ j ih =>
    rw [List.replicate_succ, List.cons_append]
    simpa [countFalse] using ih

theorem golombDecode_golombEncode (u : Nat) (rest : List Bool) :
    golombDecode (golombEncode u ++ rest) = some (u, rest) := by
  obtain ⟨t, ht⟩ := natBits_head (u + 1) (by omega)
  have hlen : (natBits (u + 1)).length = t.length + 1 := by rw [ht]; rfl
  have henc : golombEncode u ++ rest =
      List.replicate t.length false ++ true :: (t ++ rest) := by
    unfold golombEncode
    rw [hlen, ht]
    simp
  rw [henc]
  have hdrop : (List.replicate t.length false ++ true :: (t ++ rest)).drop
      t.length = true :: (t ++ rest) := by
    simpa using List.drop_left (List.replicate t.length false)
      (true :: (t ++ rest))
  simp only [golombDecode]
  rw [countFalse_replicate, hdrop]
  have hread : readBits 0 (t.length + 1) (true :: (t ++ rest)) =
      some (u + 1, rest) := by
    have h1 : (true :: t).length = t.length + 1 := rfl
    have h2 : (true :: t) ++ rest = true :: (t ++ rest) := rfl
    have := readBits_append (true :: t) 0 rest
    rw [h1, h2] at this
    rw [this]
    have hfold := foldl_natBits (u + 1) 0
    rw [ht] at hfold
    rw [hfold]
    simp
  rw [hread]
  simp

end Ectrie

namespace Ectrie

theorem decodeTree_encodeTree :
    ∀ (t : HTree) (k : Nat) (c : List Bool), encodeTree t k = some c →
      ∀ rest, decodeTree t (c ++ rest) = some (k, rest) := by
  intro t
  induction t with
  | leaf s =>
    intro k c h rest
    unfold encodeTree at h
    split at h
    next hs =>
      cases h
      subst hs
      rfl
    next => exact absurd h (by simp)
  | node l r ihl ihr =>
    intro k c h rest
    unfold encodeTree at h
    cases hal : encodeTree l k with
    | some c1 =>
      rw [hal] at h
      cases h
      exact ihl k c1 hal rest
    | none =>
      rw [hal] at h
      cases har : encodeTree r k with
      | some c1 =>
        rw [har] at h
        cases h
        exact ihr k c1 har rest
      | none =>
        rw [har] at h
        exact absurd h (by simp)

theorem encodeTree_isSome (t : HTree) (k : Nat) (h : k ∈ leaves t) :
    ∃ c, encodeTree t k = some c := by
  induction t with
  | leaf s =>
    simp only [leaves, List.mem_singleton] at h
    subst h
    exact ⟨[], by simp [encodeTree]⟩
  | node l r ihl ihr =>
    simp only [leaves, List.mem_append] at h
    cases hal : encodeTree l k with
    | some c1 => exact ⟨false :: c1, by simp [encodeTree, hal]⟩
    | none =>
      rcases h with h | h
      · obtain ⟨c, hc⟩ := ihl h
        rw [hal] at hc
        exact absurd hc (by simp)
      · obtain ⟨c, hc⟩ := ihr h
        exact ⟨true :: c, by simp [encodeTree, hal, hc]⟩

theorem encodeTree_of_pref :
    ∀ (t : HTree) (a b : Nat) (ca cb : List Bool),
      encodeTree t a = some ca → encodeTree t b = some cb →
      IsPref ca cb → ca = cb := by
  intro t
  induction t with
  | leaf s =>
    intro a b ca cb ha hb _
    unfold encodeTree at ha hb
    split at ha <;> split at hb <;> simp_all
  | node l r ihl ihr =>
    intro a b ca cb ha hb hp
    unfold encodeTree at ha hb
    cases hal : encodeTree l a with
    | some c1 =>
      rw [hal] at ha
      cases ha
      cases hbl : encodeTree l b with
      | some c2 =>
        rw [hbl] at hb
        cases hb
        obtain ⟨u, hu⟩ := hp
        have hu2 : c1 ++ u = c2 := by
          simpa using hu
        rw [ihl a b c1 c2 hal hbl ⟨u, hu2⟩]
      | none =>
        rw [hbl] at hb
        cases hbr : encodeTree r b with
        | some c2 =>
          rw [hbr] at hb
          cases hb
          obtain ⟨u, hu⟩ := hp
          simp at hu
        | none =>
          rw [hbr] at hb
          exact absurd hb (by simp)
    | none =>
      rw [hal] at ha
      cases har : encodeTree r a with
      | some c1 =>
        rw [har] at ha
        cases ha
        cases hbl : encodeTree l b with
        | some c2 =>
          rw [hbl] at hb
          cases hb
          obtain ⟨u, hu⟩ := hp
          simp at hu
        | none =>
          rw [hbl] at hb
          cases hbr : encodeTree r b with
          | some c2 =>
            rw [hbr] at hb
            cases hb
            obtain ⟨u, hu⟩ := hp
            have hu2 : c1 ++ u = c2 := by
              simpa using hu
            rw [ihr a b c1 c2 har hbr ⟨u, hu2⟩]
          | none =>
            rw [hbr] at hb
            exact absurd hb (by simp)
      | none =>
        rw [har] at ha
        exact absurd ha (by simp)

theorem encodeTree_not_pref (t : HTree) (a b : Nat) (ca cb : List Bool)
    (ha : encodeTree t a = some ca) (hb : encodeTree t b = some cb)
    (hab : a ≠ b) : ¬ IsPref ca cb := by
  intro hp
  have hcc : ca = cb := encodeTree_of_pref t a b ca cb ha hb hp
  have h1 := decodeTree_encodeTree t a ca ha []
  have h2 := decodeTree_encodeTree t b cb hb []
  rw [hcc] at h1
  rw [h1] at h2
  simp at h2
  exact hab h2

theorem pickMin_cons_isSome (x : Nat × HTree) (xs : List (Nat × HTree)) :
    ∃ p, pickMin (x :: xs) = some p := by
  unfold pickMin
  cases pickMin xs with
  | none => exact ⟨(x, []), rfl⟩
  | some q =>
    obtain ⟨m, rest⟩ := q
    by_cases h : x.1 ≤ m.1 <;> simp [h]

theorem pickMin_none (xs : List (Nat × HTree)) (h : pickMin xs = none) :
    xs = [] := by
  cases xs with
  | nil => rfl
  | cons y ys =>
    obtain ⟨p, hp⟩ := pickMin_cons_isSome y ys
    rw [hp] at h
    exact absurd h (by simp)

theorem pickMin_of_ne_nil (l : List (Nat × HTree)) (h : l ≠ []) :
    ∃ a l1, pickMin l = some (a, l1) := by
  cases l with
  | nil => exact absurd rfl h
  | cons x xs =>
    obtain ⟨⟨a, l1⟩, hp⟩ := pickMin_cons_isSome x xs
    exact ⟨a, l1, hp⟩

theorem pickMin_perm :
    ∀ (l : List (Nat × HTree)) (a : Nat × HTree)
      (rest : List (Nat × HTree)),
      pickMin l = some (a, rest) → l.Perm (a :: rest) := by
  intro l
  induction l with
  | nil => intro a rest h; exact absurd h (by simp [pickMin])
  | cons x xs ih =>
    intro a rest h
    cases h2 : pickMin xs with
    | none =>
      have hxs : xs = [] := pickMin_none xs h2
      subst hxs
      have hx : pickMin [x] = some (x, []) := rfl
      rw [hx] at h
      cases h
      exact List.Perm.refl _
    | some q =>
      obtain ⟨m, r⟩ := q
      have hx : pickMin (x :: xs) =
          if x.1 ≤ m.1 then some (x, xs) else some (m, x :: r) := by
        unfold pickMin
        rw [h2]
      rw [hx] at h
      split at h
      · cases h
        exact List.Perm.refl _
      · cases h
        exact ((ih _ _ h2).cons x).trans (List.Perm.swap _ x _)

theorem pickMin_length (l : List (Nat × HTree)) (a : Nat × HTree)
    (rest : List (Nat × HTree)) (h : pickMin l = some (a, rest)) :
    rest.length + 1 = l.length := by
  have := (pickMin_perm l a rest h).length_eq
  simpa using this.symm

theorem hStep_short (l : List (Nat × HTree)) (h : l.length ≤ 1) :
    hStep l = l := by
  match l, h with
  | [], _ => rfl
  | [x], _ => rfl

theorem hStep_merge (l : List (Nat × HTree)) (a : Nat × HTree)
    (l1 : List (Nat × HTree)) (b : Nat × HTree) (l2 : List (Nat × HTree))
    (h1 : pickMin l = some (a, l1)) (h2 : pickMin l1 = some (b, l2)) :
    hStep l = (a.1 + b.1, HTree.node a.2 b.2) :: l2 := by
  unfold hStep
  split
  next heq =>
    rw [h1] at heq
    simp at heq
  next a2 l12 heq =>
    rw [h1] at heq
    cases heq
    split
    next heq2 =>
      rw [h2] at heq2
      simp at heq2
    next b2 l22 heq2 =>
      rw [h2] at heq2
      cases heq2
      rfl

theorem pool_perm {l l2 : List (Nat × HTree)} (h : l.Perm l2) :
    (pool l).Perm (pool l2) := by
  induction h with
  | nil => exact List.Perm.refl _
  | cons x _ ih => exact ih.append_left (leaves x.2)
  | swap x y l =>
    have e1 : pool (y :: x :: l) = (leaves y.2 ++ leaves x.2) ++ pool l := by
      simp [pool, List.append_assoc]
    have e2 : pool (x :: y :: l) = (leaves x.2 ++ leaves y.2) ++ pool l := by
      simp [pool, List.append_assoc]
    rw [e1, e2]
    exact List.perm_append_comm.append_right _
  | trans _ _ ih1 ih2 => exact ih1.trans ih2

theorem hStep_pool (l : List (Nat × HTree)) :
    (pool (hStep l)).Perm (pool l) := by
  by_cases hlen : l.length ≤ 1
  · rw [hStep_short l hlen]
  · obtain ⟨a, l1, h1⟩ := pickMin_of_ne_nil l (by
      intro hnil
      rw [hnil] at hlen
      simp at hlen)
    have hl1 := pickMin_length l a l1 h1
    obtain ⟨b, l2, h2⟩ := pickMin_of_ne_nil l1 (by
      intro hnil
      rw [hnil] at hl1
      simp at hl1
      omega)
    have p1 := pickMin_perm l a l1 h1
    have p2 := pickMin_perm l1 b l2 h2
    rw [hStep_merge l a l1 b l2 h1 h2]
    have e1 : pool ((a.1 + b.1, HTree.node a.2 b.2) :: l2)
        = leaves a.2 ++ pool (b :: l2) := by
      simp [pool, leaves, List.append_assoc]
    rw [e1]
    have s2 : (leaves a.2 ++ pool (b :: l2)).Perm (leaves a.2 ++ pool l1) :=
      ((pool_perm p2).symm).append_left _
    have s3 : (pool (a :: l1)).Perm (pool l) := (pool_perm p1).symm
    exact s2.trans s3

theorem hStep_length (l : List (Nat × HTree)) (h : 2 ≤ l.length) :
    (hStep l).length + 1 = l.length := by
  obtain ⟨a, l1, h1⟩ := pickMin_of_ne_nil l (by
    intro hnil
    rw [hnil] at h
    simp at h)
  have hl1 := pickMin_length l a l1 h1
  obtain ⟨b, l2, h2⟩ := pickMin_of_ne_nil l1 (by
    intro hnil
    rw [hnil] at hl1
    simp at hl1
    omega)
  have hl2 := pickMin_length l1 b l2 h2
  rw [hStep_merge l a l1 b l2 h1 h2]
  simp only [List.length_cons]
  omega

theorem hStep_ne_nil (l : List (Nat × HTree)) (h : l ≠ []) :
    hStep l ≠ [] := by
  by_cases hlen : l.length ≤ 1
  · rw [hStep_short l hlen]
    exact h
  · obtain ⟨a, l1, h1⟩ := pickMin_of_ne_nil l h
    have hl1 := pickMin_length l a l1 h1
    obtain ⟨b, l2, h2⟩ := pickMin_of_ne_nil l1 (by
      intro hnil
      rw [hnil] at hl1
      simp at hl1
      omega)
    rw [hStep_merge l a l1 b l2 h1 h2]
    simp

theorem hRun_pool (k : Nat) :
    ∀ l : List (Nat × HTree), (pool (hRun k l)).Perm (pool l) := by
  induction k with
  | zero => intro l; exact List.Perm.refl _
  | succ k ih => intro l; exact (ih (hStep l)).trans (hStep_pool l)

theorem hRun_ne_nil (k : Nat) :
    ∀ l : List (Nat × HTree), l ≠ [] → hRun k l ≠ [] := by
  induction k with
  | zero => intro l h; exact h
  | succ k ih => intro l h; exact ih (hStep l) (hStep_ne_nil l h)

theorem hRun_length_le_one (k : Nat) :
    ∀ l : List (Nat × HTree), l.length ≤ k + 1 →
      (hRun k l).length ≤ 1 := by
  induction k with
  | zero => intro l h; simpa [hRun] using h
  | succ k ih =>
    intro l h
    by_cases h2 : l.length ≤ 1
    · show (hRun k (hStep l)).length ≤ 1
      rw [hStep_short l h2]
      exact ih l (by omega)
    · have := hStep_length l (by omega)
      exact ih (hStep l) (by omega)

theorem hBuild_leaves (l : List (Nat × HTree)) (h : l ≠ []) :
    ∃ t, hBuild l = some t ∧ (leaves t).Perm (pool l) := by
  unfold hBuild
  cases hr : hRun l.length l with
  | nil => exact absurd hr (hRun_ne_nil _ _ h)
  | cons p ps =>
    have hlen : (hRun l.length l).length ≤ 1 :=
      hRun_length_le_one _ _ (by omega)
    rw [hr] at hlen
    have hps : ps = [] := by
      simpa using hlen
    subst hps
    refine ⟨p.2, rfl, ?_⟩
    have hp := hRun_pool l.length l
    rw [hr] at hp
    simpa [pool] using hp

theorem initNodes_pool (ws : List Nat) :
    ∀ (k j : Nat), j ∈ pool (initNodes ws k) ↔ k ≤ j ∧ j < k + ws.length := by
  induction ws with
  | nil => intro k j; simp [initNodes, pool]
  | cons w ws ih =>
    intro k j
    simp only [initNodes, pool, leaves, List.length_cons, List.mem_append,
      List.mem_singleton, ih (k + 1)]
    omega

theorem initNodes_ne_nil (ws : List Nat) (k : Nat) (h : ws ≠ []) :
    initNodes ws k ≠ [] := by
  cases ws with
  | nil => exact absurd rfl h
  | cons w ws => simp [initNodes]

theorem huffWeights_ne_nil (weak : Bool) (n : Nat) :
    huffWeights weak n ≠ [] := by
  unfold huffWeights weakRow binomRow
  split <;> simp

theorem huffTable_mem (weak : Bool) (n j : Nat) :
    j ∈ leaves (huffTable weak n) ↔ j < (huffWeights weak n).length := by
  obtain ⟨t, hb, hp⟩ := hBuild_leaves (initNodes (huffWeights weak n) 0)
    (initNodes_ne_nil _ _ (huffWeights_ne_nil weak n))
  unfold huffTable
  rw [hb]
  show j ∈ leaves t ↔ _
  rw [hp.mem_iff, initNodes_pool]
  omega

end Ectrie

namespace Ectrie

theorem decodeLeft_symEncode (weak : Bool) (L n left : Nat) (s : List Bool)
    (h : symEncode weak L n left = some s) (rest : List Bool) :
    decodeLeft weak L n (s ++ rest) = some (left, rest) := by
  unfold symEncode at h
  unfold decodeLeft
  by_cases hL : n ≤ L
  · rw [if_pos hL] at h
    rw [if_pos hL]
    exact decodeTree_encodeTree _ _ _ h rest
  · rw [if_neg hL] at h
    rw [if_neg hL]
    cases h
    simp only [golombDecode_golombEncode, signDecode_signEncode]
    have hv : (left : Int) - ((n / 2 : Nat) : Int) + ((n / 2 : Nat) : Int)
        = (left : Int) := by ring
    rw [hv]
    simp

theorem countLeft_le (arr : List (List Nat)) (depth : Nat) :
    ∀ (n off : Nat), countLeft arr off n depth ≤ n := by
  intro n
  induction n with
  | zero => intro off; simp [countLeft]
  | succ m ih =>
    intro off
    unfold countLeft
    split
    · omega
    · have := ih (off + 1)
      omega

theorem countLeft_lt_bit (arr : List (List Nat)) (depth : Nat) :
    ∀ (n off i : Nat), i < countLeft arr off n depth →
      bitGet (arr.getD (off + i) []) depth = false := by
  intro n
  induction n with
  | zero => intro off i h; simp [countLeft] at h
  | succ m ih =>
    intro off i h
    unfold countLeft at h
    split at h
    · omega
    next hbit =>
      cases i with
      | zero =>
        simp only [Bool.not_eq_true] at hbit
        simpa using hbit
      | succ j =>
        have hj := ih (off + 1) j (by omega)
        have harr : off + 1 + j = off + (j + 1) := by omega
        rwa [harr] at hj

theorem countLeft_bit_true (arr : List (List Nat)) (depth : Nat) :
    ∀ (n off : Nat), countLeft arr off n depth < n →
      bitGet (arr.getD (off + countLeft arr off n depth) []) depth
        = true := by
  intro n
  induction n with
  | zero => intro off h; omega
  | succ m ih =>
    intro off h
    by_cases hbit : bitGet (arr.getD off []) depth = true
    · have hc : countLeft arr off (m + 1) depth = 0 := by
        show (if bitGet (arr.getD off []) depth = true then 0
            else countLeft arr (off + 1) m depth + 1) = 0
        rw [if_pos hbit]
      rw [hc]
      simpa using hbit
    · have hc : countLeft arr off (m + 1) depth =
          countLeft arr (off + 1) m depth + 1 := by
        show (if bitGet (arr.getD off []) depth = true then 0
            else countLeft arr (off + 1) m depth + 1) = _
        rw [if_neg hbit]
      rw [hc] at h ⊢
      have hrec := ih (off + 1) (by omega)
      have harr : off + (countLeft arr (off + 1) m depth + 1) =
          off + 1 + countLeft arr (off + 1) m depth := by omega
      rwa [harr]

theorem countLeft_eq_of_all_false (arr : List (List Nat))
    (depth n off : Nat)
    (h : ∀ i, i < n → bitGet (arr.getD (off + i) []) depth = false) :
    countLeft arr off n depth = n := by
  by_contra hne
  have hlt : countLeft arr off n depth < n :=
    lt_of_le_of_ne (countLeft_le arr depth n off) hne
  have hb := countLeft_bit_true arr depth n off hlt
  rw [h _ hlt] at hb
  simp at hb

theorem keyLt_bit_true (a b : List Nat) (klen depth : Nat)
    (h : keyLt a b klen depth) (hbit : bitGet a depth = true) :
    bitGet b depth = true := by
  obtain ⟨j, hj1, hj2, hj3, hj4, hj5⟩ := h
  rcases Nat.lt_or_ge depth j with hd | hd
  · rw [← hj5 depth hd (le_refl _)]
    exact hbit
  · have hjd : j = depth := by omega
    subst hjd
    rw [hj3] at hbit
    simp at hbit

theorem keyLt_succ (a b : List Nat) (klen depth : Nat)
    (h : keyLt a b klen depth) (heq : bitGet a depth = bitGet b depth) :
    keyLt a b klen (depth + 1) := by
  obtain ⟨j, hj1, hj2, hj3, hj4, hj5⟩ := h
  have hjne : j ≠ depth := by
    intro he
    subst he
    rw [hj3, hj4] at heq
    simp at heq
  exact ⟨j, hj1, by omega, hj3, hj4, fun t ht1 ht2 => hj5 t ht1 (by omega)⟩

theorem sorted_bit_true (arr : List (List Nat)) (klen off n depth : Nat)
    (hs : sortedRange arr klen off n depth) (i : Nat)
    (h1 : countLeft arr off n depth ≤ i) (h2 : i < n) :
    bitGet (arr.getD (off + i) []) depth = true := by
  have hlt : countLeft arr off n depth < n := by omega
  have hc := countLeft_bit_true arr depth n off hlt
  rcases eq_or_lt_of_le h1 with he | hlt2
  · rw [← he]
    exact hc
  · have hk := hs i h2 (countLeft arr off n depth) hlt2
    exact keyLt_bit_true _ _ _ _ hk hc

theorem sorted_left_child (arr : List (List Nat)) (klen off n depth : Nat)
    (hs : sortedRange arr klen off n depth) :
    sortedRange arr klen off (countLeft arr off n depth) (depth + 1) := by
  intro q hq p hp
  have hcle := countLeft_le arr depth n off
  have hk := hs q (by omega) p hp
  apply keyLt_succ _ _ _ _ hk
  rw [countLeft_lt_bit arr depth n off p (by omega),
    countLeft_lt_bit arr depth n off q hq]

theorem sorted_right_child (arr : List (List Nat)) (klen off n depth : Nat)
    (hs : sortedRange arr klen off n depth) :
    sortedRange arr klen (off + countLeft arr off n depth)
      (n - countLeft arr off n depth) (depth + 1) := by
  intro q hq p hp
  have hcle := countLeft_le arr depth n off
  have hk := hs (countLeft arr off n depth + q) (by omega)
    (countLeft arr off n depth + p) (by omega)
  have hbp := sorted_bit_true arr klen off n depth hs
    (countLeft arr off n depth + p) (by omega) (by omega)
  have hbq := sorted_bit_true arr klen off n depth hs
    (countLeft arr off n depth + q) (by omega) (by omega)
  have e1 : off + countLeft arr off n depth + p =
      off + (countLeft arr off n depth + p) := by omega
  have e2 : off + countLeft arr off n depth + q =
      off + (countLeft arr off n depth + q) := by omega
  rw [e1, e2]
  exact keyLt_succ _ _ _ _ hk (by rw [hbp, hbq])

end Ectrie

namespace Ectrie

theorem encode_rec_one (weak : Bool) (L : Nat) (arr : List (List Nat))
    (klen fuel off n base dkpb depth : Nat) (h1 : n ≤ 1) :
    encode_rec weak L arr klen (fuel + 1) off n base dkpb depth
      = some [] := by
  simp only [encode_rec]
  rw [if_pos h1]

theorem encode_rec_trunc (weak : Bool) (L : Nat) (arr : List (List Nat))
    (klen fuel off n base dkpb depth : Nat)
    (h2 : n ≤ dkpb ∧ (base + off) / dkpb = (base + off + n - 1) / dkpb) :
    encode_rec weak L arr klen (fuel + 1) off n base dkpb depth
      = some [] := by
  simp only [encode_rec]
  by_cases h1 : n ≤ 1
  · rw [if_pos h1]
  · rw [if_neg h1, if_pos h2]

theorem encode_rec_deep (weak : Bool) (L : Nat) (arr : List (List Nat))
    (klen fuel off n base dkpb depth : Nat) (h1 : ¬ n ≤ 1)
    (h2 : ¬ (n ≤ dkpb ∧ (base + off) / dkpb = (base + off + n - 1) / dkpb))
    (h3 : klen * 8 ≤ depth) :
    encode_rec weak L arr klen (fuel + 1) off n base dkpb depth
      = none := by
  simp only [encode_rec]
  rw [if_neg h1, if_neg h2, if_pos h3]

theorem encode_rec_main (weak : Bool) (L : Nat) (arr : List (List Nat))
    (klen fuel off n base dkpb depth : Nat) (left : Nat)
    (hl : left = if weak ∧ countLeft arr off n depth = n then 0
      else countLeft arr off n depth)
    (h1 : ¬ n ≤ 1)
    (h2 : ¬ (n ≤ dkpb ∧ (base + off) / dkpb = (base + off + n - 1) / dkpb))
    (h3 : ¬ klen * 8 ≤ depth) :
    encode_rec weak L arr klen (fuel + 1) off n base dkpb depth =
      (symEncode weak L n left).bind (fun s =>
        (encode_rec weak L arr klen fuel off left base dkpb
            (depth + 1)).bind (fun x =>
          (encode_rec weak L arr klen fuel (off + left) (n - left) base dkpb
              (depth + 1)).map (fun y => s ++ x ++ y))) := by
  subst hl
  simp only [encode_rec]
  rw [if_neg h1, if_neg h2, if_neg h3]

theorem skip_rec_one (weak : Bool) (L : Nat)
    (klen fuel : Nat) (bs : List Bool) (off n base dkpb depth : Nat)
    (h1 : n ≤ 1) :
    skip_rec weak L klen (fuel + 1) bs off n base dkpb depth = some bs := by
  simp only [skip_rec]
  rw [if_pos h1]

theorem skip_rec_trunc (weak : Bool) (L : Nat)
    (klen fuel : Nat) (bs : List Bool) (off n base dkpb depth : Nat)
    (h2 : n ≤ dkpb ∧ (base + off) / dkpb = (base + off + n - 1) / dkpb) :
    skip_rec weak L klen (fuel + 1) bs off n base dkpb depth = some bs := by
  simp only [skip_rec]
  by_cases h1 : n ≤ 1
  · rw [if_pos h1]
  · rw [if_neg h1, if_pos h2]

theorem skip_rec_step (weak : Bool) (L : Nat)
    (klen fuel : Nat) (bs : List Bool) (off n base dkpb depth : Nat)
    (left : Nat) (bs1 : List Bool)
    (h1 : ¬ n ≤ 1)
    (h2 : ¬ (n ≤ dkpb ∧ (base + off) / dkpb = (base + off + n - 1) / dkpb))
    (hdec : decodeLeft weak L n bs = some (left, bs1)) (hle : left ≤ n) :
    skip_rec weak L klen (fuel + 1) bs off n base dkpb depth =
      (skip_rec weak L klen fuel bs1 off left base dkpb (depth + 1)).bind
        (fun bs2 => skip_rec weak L klen fuel bs2 (off + left) (n - left)
          base dkpb (depth + 1)) := by
  simp only [skip_rec, hdec]
  rw [if_neg h1, if_neg h2, if_neg (not_lt.mpr hle)]

theorem skip_rec_corrupt (weak : Bool) (L : Nat)
    (klen fuel : Nat) (bs : List Bool) (off n base dkpb depth : Nat)
    (left : Nat) (bs1 : List Bool)
    (h1 : ¬ n ≤ 1)
    (h2 : ¬ (n ≤ dkpb ∧ (base + off) / dkpb = (base + off + n - 1) / dkpb))
    (hdec : decodeLeft weak L n bs = some (left, bs1)) (hgt : n < left) :
    skip_rec weak L klen (fuel + 1) bs off n base dkpb depth = none := by
  simp only [skip_rec, hdec]
  rw [if_neg h1, if_neg h2, if_pos hgt]

theorem locate_rec_one (weak : Bool) (L : Nat) (klen : Nat)
    (key : List Nat) (fuel : Nat) (bs : List Bool)
    (off n base dkpb depth : Nat) (h1 : n ≤ 1) :
    locate_rec weak L klen key (fuel + 1) bs off n base dkpb depth
      = some (0, bs) := by
  simp only [locate_rec]
  rw [if_pos h1]

theorem locate_rec_trunc (weak : Bool) (L : Nat) (klen : Nat)
    (key : List Nat) (fuel : Nat) (bs : List Bool)
    (off n base dkpb depth : Nat)
    (h2 : n ≤ dkpb ∧ (base + off) / dkpb = (base + off + n - 1) / dkpb) :
    locate_rec weak L klen key (fuel + 1) bs off n base dkpb depth
      = some (0, bs) := by
  simp only [locate_rec]
  by_cases h1 : n ≤ 1
  · rw [if_pos h1]
  · rw [if_neg h1, if_pos h2]

theorem locate_rec_deep (weak : Bool) (L : Nat) (klen : Nat)
    (key : List Nat) (fuel : Nat) (bs : List Bool)
    (off n base dkpb depth : Nat) (h1 : ¬ n ≤ 1)
    (h2 : ¬ (n ≤ dkpb ∧ (base + off) / dkpb = (base + off + n - 1) / dkpb))
    (h3 : klen * 8 ≤ depth) :
    locate_rec weak L klen key (fuel + 1) bs off n base dkpb depth
      = none := by
  simp only [locate_rec]
  rw [if_neg h1, if_neg h2, if_pos h3]

theorem locate_rec_corrupt (weak : Bool) (L : Nat) (klen : Nat)
    (key : List Nat) (fuel : Nat) (bs : List Bool)
    (off n base dkpb depth : Nat) (left : Nat) (bs1 : List Bool)
    (h1 : ¬ n ≤ 1)
    (h2 : ¬ (n ≤ dkpb ∧ (base + off) / dkpb = (base + off + n - 1) / dkpb))
    (h3 : ¬ klen * 8 ≤ depth)
    (hdec : decodeLeft weak L n bs = some (left, bs1)) (hgt : n < left) :
    locate_rec weak L klen key (fuel + 1) bs off n base dkpb depth
      = none := by
  simp only [locate_rec, hdec]
  rw [if_neg h1, if_neg h2, if_neg h3, if_pos hgt]

theorem locate_rec_left (weak : Bool) (L : Nat) (klen : Nat)
    (key : List Nat) (fuel : Nat) (bs : List Bool)
    (off n base dkpb depth : Nat) (left : Nat) (bs1 : List Bool)
    (h1 : ¬ n ≤ 1)
    (h2 : ¬ (n ≤ dkpb ∧ (base + off) / dkpb = (base + off + n - 1) / dkpb))
    (h3 : ¬ klen * 8 ≤ depth)
    (hdec : decodeLeft weak L n bs = some (left, bs1)) (hle : left ≤ n)
    (hcond : (!bitGet key depth && (!weak || (weak && left != 0)))
      = true) :
    locate_rec weak L klen key (fuel + 1) bs off n base dkpb depth =
      locate_rec weak L klen key fuel bs1 off left base dkpb (depth + 1)
      := by
  simp only [locate_rec, hdec]
  rw [if_neg h1, if_neg h2, if_neg h3, if_neg (not_lt.mpr hle),
    if_pos hcond]

theorem locate_rec_right (weak : Bool) (L : Nat) (klen : Nat)
    (key : List Nat) (fuel : Nat) (bs : List Bool)
    (off n base dkpb depth : Nat) (left : Nat) (bs1 : List Bool)
    (h1 : ¬ n ≤ 1)
    (h2 : ¬ (n ≤ dkpb ∧ (base + off) / dkpb = (base + off + n - 1) / dkpb))
    (h3 : ¬ klen * 8 ≤ depth)
    (hdec : decodeLeft weak L n bs = some (left, bs1)) (hle : left ≤ n)
    (hcond : ¬ (!bitGet key depth && (!weak || (weak && left != 0)))
      = true) :
    locate_rec weak L klen key (fuel + 1) bs off n base dkpb depth =
      (skip_rec weak L klen fuel bs1 off left base dkpb (depth + 1)).bind
        (fun bs2 =>
          (locate_rec weak L klen key fuel bs2 (off + left) (n - left)
              base dkpb (depth + 1)).map
            (fun rb => (left + rb.1, rb.2))) := by
  simp only [locate_rec, hdec]
  rw [if_neg h1, if_neg h2, if_neg h3, if_neg (not_lt.mpr hle),
    if_neg hcond]

theorem noTruncF_one (weak : Bool) (arr : List (List Nat))
    (klen fuel off n base dkpb depth : Nat) (h1 : n ≤ 1) :
    noTruncF weak arr klen (fuel + 1) off n base dkpb depth = true := by
  simp only [noTruncF]
  rw [if_pos h1]

theorem noTruncF_trunc (weak : Bool) (arr : List (List Nat))
    (klen fuel off n base dkpb depth : Nat) (h1 : ¬ n ≤ 1)
    (h2 : n ≤ dkpb ∧ (base + off) / dkpb = (base + off + n - 1) / dkpb) :
    noTruncF weak arr klen (fuel + 1) off n base dkpb depth = false := by
  simp only [noTruncF]
  rw [if_neg h1, if_pos h2]

theorem noTruncF_main (weak : Bool) (arr : List (List Nat))
    (klen fuel off n base dkpb depth : Nat) (left : Nat)
    (hl : left = if weak ∧ countLeft arr off n depth = n then 0
      else countLeft arr off n depth)
    (h1 : ¬ n ≤ 1)
    (h2 : ¬ (n ≤ dkpb ∧ (base + off) / dkpb = (base + off + n - 1) / dkpb))
    (h3 : ¬ klen * 8 ≤ depth) :
    noTruncF weak arr klen (fuel + 1) off n base dkpb depth =
      (noTruncF weak arr klen fuel off left base dkpb (depth + 1) &&
        noTruncF weak arr klen fuel (off + left) (n - left) base dkpb
          (depth + 1)) := by
  subst hl
  simp only [noTruncF]
  rw [if_neg h1, if_neg h2, if_neg h3]

end Ectrie

namespace Ectrie

theorem skip_encode_exact (weak : Bool) (L : Nat) (arr : List (List Nat))
    (klen : Nat) :
    ∀ fuel off n base dkpb depth enc,
      encode_rec weak L arr klen fuel off n base dkpb depth = some enc →
      ∀ rest,
        skip_rec weak L klen fuel (enc ++ rest) off n base dkpb depth
          = some rest := by
  intro fuel
  induction fuel with
  | zero =>
    intro off n base dkpb depth enc henc rest
    simp [encode_rec] at henc
  | succ f ih =>
    intro off n base dkpb depth enc henc rest
    by_cases h1 : n ≤ 1
    · rw [encode_rec_one weak L arr klen f off n base dkpb depth h1] at henc
      cases henc
      rw [List.nil_append]
      exact skip_rec_one weak L klen f rest off n base dkpb depth h1
    · by_cases h2 : n ≤ dkpb ∧
          (base + off) / dkpb = (base + off + n - 1) / dkpb
      · rw [encode_rec_trunc weak L arr klen f off n base dkpb depth h2]
          at henc
        cases henc
        rw [List.nil_append]
        exact skip_rec_trunc weak L klen f rest off n base dkpb depth h2
      · by_cases h3 : klen * 8 ≤ depth
        · rw [encode_rec_deep weak L arr klen f off n base dkpb depth
            h1 h2 h3] at henc
          exact absurd henc (by simp)
        · set left := (if weak ∧ countLeft arr off n depth = n then 0
            else countLeft arr off n depth) with hleft
          rw [encode_rec_main weak L arr klen f off n base dkpb depth left
            hleft h1 h2 h3] at henc
          simp only [Option.bind_eq_some, Option.map_eq_some'] at henc
          obtain ⟨s, hs, x, hx, y, hy, henc⟩ := henc
          subst henc
          have hle : left ≤ n := by
            rw [hleft]
            split
            · omega
            · exact countLeft_le arr depth n off
          have he : (s ++ x ++ y) ++ rest = s ++ (x ++ (y ++ rest)) := by
            simp
          rw [he]
          have hdec := decodeLeft_symEncode weak L n left s hs
            (x ++ (y ++ rest))
          rw [skip_rec_step weak L klen f (s ++ (x ++ (y ++ rest))) off n
            base dkpb depth left (x ++ (y ++ rest)) h1 h2 hdec hle]
          rw [ih off left base dkpb (depth + 1) x hx (y ++ rest)]
          simp only [Option.some_bind]
          exact ih (off + left) (n - left) base dkpb (depth + 1) y hy rest

end Ectrie

namespace Ectrie

theorem locate_encode_rank (L : Nat) (arr : List (List Nat)) (klen : Nat) :
    ∀ fuel off n base dkpb depth i enc,
      sortedRange arr klen off n depth →
      noTruncF false arr klen fuel off n base dkpb depth = true →
      i < n →
      encode_rec false L arr klen fuel off n base dkpb depth = some enc →
      ∀ rest, ∃ tail,
        locate_rec false L klen (arr.getD (off + i) []) fuel (enc ++ rest)
          off n base dkpb depth = some (i, tail) := by
  intro fuel
  induction fuel with
  | zero =>
    intro off n base dkpb depth i enc hs hnt hi henc rest
    simp [encode_rec] at henc
  | succ f ih =>
    intro off n base dkpb depth i enc hs hnt hi henc rest
    by_cases h1 : n ≤ 1
    · rw [encode_rec_one false L arr klen f off n base dkpb depth h1]
        at henc
      cases henc
      have hi0 : i = 0 := by omega
      subst hi0
      rw [List.nil_append]
      exact ⟨rest, locate_rec_one false L klen _ f rest off n base dkpb
        depth h1⟩
    · by_cases h2 : n ≤ dkpb ∧
          (base + off) / dkpb = (base + off + n - 1) / dkpb
      · rw [noTruncF_trunc false arr klen f off n base dkpb depth h1 h2]
          at hnt
        simp at hnt
      · by_cases h3 : klen * 8 ≤ depth
        · rw [encode_rec_deep false L arr klen f off n base dkpb depth
            h1 h2 h3] at henc
          exact absurd henc (by simp)
        · have hlf : (if (false : Bool) ∧ countLeft arr off n depth = n
              then 0 else countLeft arr off n depth)
              = countLeft arr off n depth := by
            simp
          rw [encode_rec_main false L arr klen f off n base dkpb depth _
            hlf.symm h1 h2 h3] at henc
          simp only [Option.bind_eq_some, Option.map_eq_some'] at henc
          obtain ⟨s, hs2, x, hx, y, hy, henc⟩ := henc
          subst henc
          have hcle : countLeft arr off n depth ≤ n :=
            countLeft_le arr depth n off
          have he : (s ++ x ++ y) ++ rest = s ++ (x ++ (y ++ rest)) := by
            simp
          rw [he]
          have hdec := decodeLeft_symEncode false L n
            (countLeft arr off n depth) s hs2 (x ++ (y ++ rest))
          rw [noTruncF_main false arr klen f off n base dkpb depth _
            hlf.symm h1 h2 h3] at hnt
          simp only [Bool.and_eq_true] at hnt
          obtain ⟨hnt1, hnt2⟩ := hnt
          by_cases hb : i < countLeft arr off n depth
          · have hbit : bitGet (arr.getD (off + i) []) depth = false :=
              countLeft_lt_bit arr depth n off i hb
            have hcond : (!bitGet (arr.getD (off + i) []) depth &&
                (!(false : Bool) || ((false : Bool) &&
                  countLeft arr off n depth != 0))) = true := by
              rw [hbit]
              rfl
            rw [locate_rec_left false L klen _ f _ off n base dkpb depth _
              _ h1 h2 h3 hdec hcle hcond]
            exact ih off (countLeft arr off n depth) base dkpb (depth + 1)
              i x (sorted_left_child arr klen off n depth hs) hnt1 hb hx
              (y ++ rest)
          · have hbit : bitGet (arr.getD (off + i) []) depth = true :=
              sorted_bit_true arr klen off n depth hs i (by omega) hi
            have hcond : ¬ (!bitGet (arr.getD (off + i) []) depth &&
                (!(false : Bool) || ((false : Bool) &&
                  countLeft arr off n depth != 0))) = true := by
              rw [hbit]
              simp
            rw [locate_rec_right false L klen _ f _ off n base dkpb depth _
              _ h1 h2 h3 hdec hcle hcond]
            rw [skip_encode_exact false L arr klen f off
              (countLeft arr off n depth) base dkpb (depth + 1) x hx
              (y ++ rest)]
            simp only [Option.some_bind]
            have hi2 : i - countLeft arr off n depth
                < n - countLeft arr off n depth := by omega
            obtain ⟨tail, htail⟩ := ih (off + countLeft arr off n depth)
              (n - countLeft arr off n depth) base dkpb (depth + 1)
              (i - countLeft arr off n depth) y
              (sorted_right_child arr klen off n depth hs) hnt2 hi2 hy rest
            have hidx : off + countLeft arr off n depth +
                (i - countLeft arr off n depth) = off + i := by omega
            rw [hidx] at htail
            refine ⟨tail, ?_⟩
            rw [htail]
            simp only [Option.map_some']
            have hsum : countLeft arr off n depth +
                (i - countLeft arr off n depth) = i := by omega
            rw [hsum]

end Ectrie

namespace Ectrie

theorem locate_encode_defined (weak : Bool) (L : Nat)
    (arr : List (List Nat)) (klen : Nat) (key : List Nat) :
    ∀ fuel off n base dkpb depth enc,
      encode_rec weak L arr klen fuel off n base dkpb depth = some enc →
      ∀ rest, ∃ r tail,
        locate_rec weak L klen key fuel (enc ++ rest) off n base dkpb
          depth = some (r, tail) := by
  intro fuel
  induction fuel with
  | zero =>
    intro off n base dkpb depth enc henc rest
    simp [encode_rec] at henc
  | succ f ih =>
    intro off n base dkpb depth enc henc rest
    by_cases h1 : n ≤ 1
    · rw [encode_rec_one weak L arr klen f off n base dkpb depth h1]
        at henc
      cases henc
      rw [List.nil_append]
      exact ⟨0, rest, locate_rec_one weak L klen key f rest off n base
        dkpb depth h1⟩
    · by_cases h2 : n ≤ dkpb ∧
          (base + off) / dkpb = (base + off + n - 1) / dkpb
      · rw [encode_rec_trunc weak L arr klen f off n base dkpb depth h2]
          at henc
        cases henc
        rw [List.nil_append]
        exact ⟨0, rest, locate_rec_trunc weak L klen key f rest off n base
          dkpb depth h2⟩
      · by_cases h3 : klen * 8 ≤ depth
        · rw [encode_rec_deep weak L arr klen f off n base dkpb depth
            h1 h2 h3] at henc
          exact absurd henc (by simp)
        · rw [encode_rec_main weak L arr klen f off n base dkpb depth _
            rfl h1 h2 h3] at henc
          simp only [Option.bind_eq_some, Option.map_eq_some'] at henc
          obtain ⟨s, hs2, x, hx, y, hy, henc⟩ := henc
          subst henc
          have hle : (if weak ∧ countLeft arr off n depth = n then 0
              else countLeft arr off n depth) ≤ n := by
            split
            · omega
            · exact countLeft_le arr depth n off
          have he : (s ++ x ++ y) ++ rest = s ++ (x ++ (y ++ rest)) := by
            simp
          rw [he]
          have hdec := decodeLeft_symEncode weak L n _ s hs2
            (x ++ (y ++ rest))
          by_cases hcond : (!bitGet key depth && (!weak ||
              (weak && (if weak ∧ countLeft arr off n depth = n then 0
                else countLeft arr off n depth) != 0))) = true
          · rw [locate_rec_left weak L klen key f _ off n base dkpb depth
              _ _ h1 h2 h3 hdec hle hcond]
            exact ih off _ base dkpb (depth + 1) x hx (y ++ rest)
          · rw [locate_rec_right weak L klen key f _ off n base dkpb depth
              _ _ h1 h2 h3 hdec hle hcond]
            rw [skip_encode_exact weak L arr klen f off _ base dkpb
              (depth + 1) x hx (y ++ rest)]
            simp only [Option.some_bind]
            obtain ⟨r, tail, ht⟩ := ih (off + _) (n - _) base dkpb
              (depth + 1) y hy rest
            refine ⟨(if weak ∧ countLeft arr off n depth = n then 0
              else countLeft arr off n depth) + r, tail, ?_⟩
            rw [ht]
            simp

theorem encode_rec_fuel (weak : Bool) (L : Nat) (arr : List (List Nat))
    (klen : Nat) :
    ∀ f1 f2 off n base dkpb depth, 1 ≤ f1 → 1 ≤ f2 →
      klen * 8 + 1 ≤ depth + f1 → klen * 8 + 1 ≤ depth + f2 →
      encode_rec weak L arr klen f1 off n base dkpb depth =
        encode_rec weak L arr klen f2 off n base dkpb depth := by
  intro f1
  induction f1 with
  | zero =>
    intro f2 off n base dkpb depth hf1 hf2 hb1 hb2
    omega
  | succ g ih =>
    intro f2 off n base dkpb depth hf1 hf2 hb1 hb2
    obtain ⟨g2, rfl⟩ : ∃ g2, f2 = g2 + 1 := ⟨f2 - 1, by omega⟩
    by_cases h1 : n ≤ 1
    · rw [encode_rec_one weak L arr klen g off n base dkpb depth h1,
        encode_rec_one weak L arr klen g2 off n base dkpb depth h1]
    · by_cases h2 : n ≤ dkpb ∧
          (base + off) / dkpb = (base + off + n - 1) / dkpb
      · rw [encode_rec_trunc weak L arr klen g off n base dkpb depth h2,
          encode_rec_trunc weak L arr klen g2 off n base dkpb depth h2]
      · by_cases h3 : klen * 8 ≤ depth
        · rw [encode_rec_deep weak L arr klen g off n base dkpb depth
            h1 h2 h3, encode_rec_deep weak L arr klen g2 off n base dkpb
            depth h1 h2 h3]
        · rw [encode_rec_main weak L arr klen g off n base dkpb depth _
            rfl h1 h2 h3, encode_rec_main weak L arr klen g2 off n base
            dkpb depth _ rfl h1 h2 h3]
          rw [ih g2 off _ base dkpb (depth + 1) (by omega) (by omega)
            (by omega) (by omega)]
          rw [ih g2 (off + _) (n - _) base dkpb (depth + 1) (by omega)
            (by omega) (by omega) (by omega)]

end Ectrie

namespace Ectrie

theorem huffWeights_length (weak : Bool) (n : Nat) (hn : 1 ≤ n) :
    (huffWeights weak n).length = if weak then n else n + 1 := by
  unfold huffWeights weakRow binomRow
  cases weak
  · simp
  · simp
    omega

/-- C1: in non-weak mode, for any key array window sorted ascending in
MSB-first bit order with all keys distinct within key_len*8 bits
(sortedRange), and for any configuration under which no block-uniform
truncation merges distinct keys (noTruncF), locating any key of the
window in the encoded bitstream returns that key's index in the sorted
window.  In particular this covers the spec's 4-key one-byte example. -/
theorem claim_C1_roundtrip (L : Nat) (arr : List (List Nat))
    (klen off n base dkpb fuel i : Nat) (enc rest : List Bool)
    (hs : sortedRange arr klen off n 0)
    (hnt : noTruncF false arr klen fuel off n base dkpb 0 = true)
    (hi : i < n)
    (henc : encode_rec false L arr klen fuel off n base dkpb 0
      = some enc) :
    ∃ tail, locate_rec false L klen (arr.getD (off + i) []) fuel
      (enc ++ rest) off n base dkpb 0 = some (i, tail) :=
  locate_encode_rank L arr klen fuel off n base dkpb 0 i enc hs hnt hi
    henc rest

/-- Witness for C1: the spec's end-to-end example, keys 0x00 0x10 0x80
0x90, one byte each, dest_keys_per_block chosen so that no truncation
occurs: locate(0x80) = 2 and locate(0x10) = 1. -/
theorem claim_C1_roundtrip_witness :
    (∃ tail, locate_rec false 16 1 [0x80] 9
      ([false, false, true, false, true, true, false, true, false, true,
        true] ++ []) 0 4 0 1 0 = some (2, tail)) ∧
    (∃ tail, locate_rec false 16 1 [0x10] 9
      ([false, false, true, false, true, true, false, true, false, true,
        true] ++ []) 0 4 0 1 0 = some (1, tail)) :=
  ⟨claim_C1_roundtrip 16 exArr 1 0 4 0 1 9 2 _ [] (by decide) (by decide)
      (by decide) (by decide),
    claim_C1_roundtrip 16 exArr 1 0 4 0 1 9 1 _ [] (by decide) (by decide)
      (by decide) (by decide)⟩

/-- C2: on a block-uniform range (n at most dest_keys_per_block and the
first and last position map to the same destination block), encode
appends zero bits and locate returns rank 0 without advancing the
cursor, for any query key. -/
theorem claim_C2_block_uniform (weak : Bool) (L : Nat)
    (arr : List (List Nat)) (klen fuel off n base dkpb depth : Nat)
    (key : List Nat) (bs : List Bool)
    (hn : n ≤ dkpb)
    (hb : (base + off) / dkpb = (base + off + n - 1) / dkpb) :
    encode_rec weak L arr klen (fuel + 1) off n base dkpb depth
        = some [] ∧
    locate_rec weak L klen key (fuel + 1) bs off n base dkpb depth
        = some (0, bs) :=
  ⟨encode_rec_trunc weak L arr klen fuel off n base dkpb depth ⟨hn, hb⟩,
    locate_rec_trunc weak L klen key fuel bs off n base dkpb depth
      ⟨hn, hb⟩⟩

/-- Witness for C2: a 3-key range entirely inside one destination block
of 10 keys. -/
theorem claim_C2_block_uniform_witness :
    encode_rec false 16 exArr 1 (8 + 1) 0 3 0 10 0 = some [] ∧
    locate_rec false 16 1 [0] (8 + 1) [true] 0 3 0 10 0
      = some (0, [true]) :=
  claim_C2_block_uniform false 16 exArr 1 8 0 3 0 10 0 [0] [true]
    (by decide) (by decide)

/-- C3: with weak ordering enabled, on a range whose keys all have bit 0
at the current depth (left = n), encode rewrites left to 0 before
emitting the symbol and the whole range is carried by the right child at
depth+1; locate follows the left branch iff the query bit is 0 and the
decoded left is nonzero, so a decoded 0 routes every query into the
right branch with rank offset 0, keeping all n keys grouped together. -/
theorem claim_C3_weak_collapse (L : Nat) (arr : List (List Nat))
    (klen fuel off n base dkpb depth : Nat)
    (h1 : 1 < n)
    (h2 : ¬ (n ≤ dkpb ∧ (base + off) / dkpb = (base + off + n - 1) / dkpb))
    (h3 : ¬ klen * 8 ≤ depth) :
    ((∀ i, i < n → bitGet (arr.getD (off + i) []) depth = false) →
      ∀ s e2, symEncode true L n 0 = some s →
        encode_rec true L arr klen fuel off n base dkpb (depth + 1)
          = some e2 →
        encode_rec true L arr klen (fuel + 1) off n base dkpb depth
          = some (s ++ e2)) ∧
    (∀ key bs bs1, decodeLeft true L n bs = some (0, bs1) → 1 ≤ fuel →
      locate_rec true L klen key (fuel + 1) bs off n base dkpb depth =
        locate_rec true L klen key fuel bs1 off n base dkpb (depth + 1)) ∧
    (∀ key bs bs1 left, decodeLeft true L n bs = some (left, bs1) →
      left ≤ n → bitGet key depth = false → left ≠ 0 →
      locate_rec true L klen key (fuel + 1) bs off n base dkpb depth =
        locate_rec true L klen key fuel bs1 off left base dkpb
          (depth + 1)) ∧
    (∀ key bs bs1 left, decodeLeft true L n bs = some (left, bs1) →
      left ≤ n → (bitGet key depth = true ∨ left = 0) →
      locate_rec true L klen key (fuel + 1) bs off n base dkpb depth =
        (skip_rec true L klen fuel bs1 off left base dkpb
            (depth + 1)).bind
          (fun bs2 => (locate_rec true L klen key fuel bs2 (off + left)
              (n - left) base dkpb (depth + 1)).map
            (fun rb => (left + rb.1, rb.2)))) := by
  have h1' : ¬ n ≤ 1 := by omega
  refine ⟨?_, ?_, ?_, ?_⟩
  · intro hall s e2 hsym he2
    have hcount : countLeft arr off n depth = n :=
      countLeft_eq_of_all_false arr depth n off hall
    have hlf : (0 : Nat) =
        if (true : Bool) ∧ countLeft arr off n depth = n then 0
        else countLeft arr off n depth := by
      rw [hcount]
      simp
    rw [encode_rec_main true L arr klen fuel off n base dkpb depth 0 hlf
      h1' h2 h3]
    obtain ⟨g, rfl⟩ : ∃ g, fuel = g + 1 := by
      cases fuel with
      | zero => simp [encode_rec] at he2
      | succ g => exact ⟨g, rfl⟩
    rw [hsym]
    simp only [Option.some_bind]
    rw [encode_rec_one true L arr klen g off 0 base dkpb (depth + 1)
      (by omega)]
    simp only [Option.some_bind]
    rw [show off + 0 = off by omega, show n - 0 = n by omega, he2]
    simp
  · intro key bs bs1 hdec hfuel
    have hcond : ¬ (!bitGet key depth && (!(true : Bool) ||
        ((true : Bool) && (0 : Nat) != 0))) = true := by simp
    rw [locate_rec_right true L klen key fuel bs off n base dkpb depth 0
      bs1 h1' h2 h3 hdec (by omega) hcond]
    obtain ⟨g, rfl⟩ : ∃ g, fuel = g + 1 := ⟨fuel - 1, by omega⟩
    rw [skip_rec_one true L klen g bs1 off 0 base dkpb (depth + 1)
      (by omega)]
    simp only [Option.some_bind]
    rw [show off + 0 = off by omega, show n - 0 = n by omega]
    rcases locate_rec true L klen key (g + 1) bs1 off n base dkpb
      (depth + 1) with _ | rb
    · rfl
    · simp
  · intro key bs bs1 left hdec hle hbit hne
    have hcond : (!bitGet key depth && (!(true : Bool) ||
        ((true : Bool) && left != 0))) = true := by
      rw [hbit]
      simp [hne]
    exact locate_rec_left true L klen key fuel bs off n base dkpb depth
      left bs1 h1' h2 h3 hdec hle hcond
  · intro key bs bs1 left hdec hle hor
    have hcond : ¬ (!bitGet key depth && (!(true : Bool) ||
        ((true : Bool) && left != 0))) = true := by
      rcases hor with hb | hl0
      · rw [hb]
        simp
      · subst hl0
        simp
    exact locate_rec_right true L klen key fuel bs off n base dkpb depth
      left bs1 h1' h2 h3 hdec hle hcond

/-- Witness for C3: two one-byte keys 0x00, 0x40 that share bit 0 at
depth 0; the collapsed range emits the weak symbol for 0 and a decoded
0 routes the query right at the same range. -/
theorem claim_C3_weak_collapse_witness :
    encode_rec true 16 [[0x00], [0x40]] 1 (8 + 1) 0 2 0 1 0
      = some ([false] ++ [true]) ∧
    locate_rec true 16 1 [0x00] (8 + 1) [false] 0 2 0 1 0
      = locate_rec true 16 1 [0x00] 8 [] 0 2 0 1 1 := by
  have h := claim_C3_weak_collapse 16 [[0x00], [0x40]] 1 8 0 2 0 1 0
    (by decide) (by decide) (by decide)
  exact ⟨h.1 (by decide) [false] [true] (by decide) (by decide),
    h.2.1 [0x00] [false] [] (by decide) (by decide)⟩

/-- C4: when the encode recursion reaches depth at least key_len*8 with
more than one key still in the range (and no truncation applies), it
reports an error (the duplicate-key assert, embedded as none) instead of
recursing past the bit-length bound. -/
theorem claim_C4_invalid_input (weak : Bool) (L : Nat)
    (arr : List (List Nat)) (klen fuel off n base dkpb depth : Nat)
    (hn : 1 < n)
    (h2 : ¬ (n ≤ dkpb ∧ (base + off) / dkpb = (base + off + n - 1) / dkpb))
    (h3 : klen * 8 ≤ depth) :
    encode_rec weak L arr klen (fuel + 1) off n base dkpb depth = none :=
  encode_rec_deep weak L arr klen fuel off n base dkpb depth (by omega)
    h2 h3

/-- Witness for C4: two bit-identical one-byte keys; the recursion
erroring at depth 8, and the full encode of the duplicate array from
depth 0 erroring as well. -/
theorem claim_C4_invalid_input_witness :
    encode_rec false 16 [[7], [7]] 1 (0 + 1) 0 2 0 1 8 = none ∧
    encode_rec false 16 [[7], [7]] 1 9 0 2 0 1 0 = none :=
  ⟨claim_C4_invalid_input false 16 [[7], [7]] 1 0 0 2 0 1 8 (by decide)
      (by decide) (by decide),
    by decide⟩

/-- C5: during decode, a decoded left value exceeding the current n is
reported as corruption: both locate and skip return none and never
continue with such a value. -/
theorem claim_C5_corruption (weak : Bool) (L klen fuel : Nat)
    (key : List Nat) (bs : List Bool) (off n base dkpb depth left : Nat)
    (bs1 : List Bool)
    (h1 : 1 < n)
    (h2 : ¬ (n ≤ dkpb ∧ (base + off) / dkpb = (base + off + n - 1) / dkpb))
    (h3 : ¬ klen * 8 ≤ depth)
    (hdec : decodeLeft weak L n bs = some (left, bs1))
    (hgt : n < left) :
    locate_rec weak L klen key (fuel + 1) bs off n base dkpb depth
        = none ∧
    skip_rec weak L klen (fuel + 1) bs off n base dkpb depth = none :=
  ⟨locate_rec_corrupt weak L klen key fuel bs off n base dkpb depth left
      bs1 (by omega) h2 h3 hdec hgt,
    skip_rec_corrupt weak L klen fuel bs off n base dkpb depth left bs1
      (by omega) h2 hdec hgt⟩

/-- Witness for C5: n = 17 exceeds the Huffman limit 16, so left comes
from the Golomb path; the stream encodes deviation 10, decoding to
left = 18 > 17, and both locate and skip report none. -/
theorem claim_C5_corruption_witness :
    locate_rec false 16 3 [0] (4 + 1) [false, false, false, false, true,
      false, true, false, true] 0 17 0 1 0 = none ∧
    skip_rec false 16 3 (4 + 1) [false, false, false, false, true, false,
      true, false, true] 0 17 0 1 0 = none :=
  claim_C5_corruption false 16 3 4 [0] [false, false, false, false, true,
      false, true, false, true] 0 17 0 1 0 18 [] (by decide) (by decide)
    (by decide) (by decide) (by decide)

/-- C6: for every range encode encoded, skip started at the beginning of
that range's bits advances the cursor past exactly the bits encode
wrote, for any contents of the rest of the stream. -/
theorem claim_C6_skip_exact (weak : Bool) (L : Nat)
    (arr : List (List Nat)) (klen fuel off n base dkpb depth : Nat)
    (enc rest : List Bool)
    (henc : encode_rec weak L arr klen fuel off n base dkpb depth
      = some enc) :
    skip_rec weak L klen fuel (enc ++ rest) off n base dkpb depth
      = some rest :=
  skip_encode_exact weak L arr klen fuel off n base dkpb depth enc henc
    rest

/-- Witness for C6: skipping the encoding of the 4-key example leaves
exactly the trailing bit. -/
theorem claim_C6_skip_exact_witness :
    skip_rec false 16 1 9 ([false, false, true, false, true, true, false,
      true, false, true, true] ++ [true]) 0 4 0 1 0 = some [true] :=
  claim_C6_skip_exact false 16 exArr 1 9 0 4 0 1 0 _ [true] (by decide)

/-- C7: exponential-Golomb coding and sign interleaving are exact
inverses: decoding the encoding of any non-negative integer returns it,
consuming exactly the bits written, and sign decode inverts sign encode
on every integer. -/
theorem claim_C7_golomb_sign :
    (∀ (u : Nat) (rest : List Bool),
      golombDecode (golombEncode u ++ rest) = some (u, rest)) ∧
    (∀ v : Int, signDecode (signEncode v) = v) :=
  ⟨golombDecode_golombEncode, signDecode_signEncode⟩

/-- C8: every Huffman table the codec constructs (any subtree size n of
at least 2, in either mode) is a prefix-free code: codewords of distinct
symbols are never prefixes of one another, and decoding the encoding of
every valid symbol of the table returns that symbol. -/
theorem claim_C8_huffman (weak : Bool) (n : Nat) (hn : 2 ≤ n) :
    (∀ a b ca cb, encodeTree (huffTable weak n) a = some ca →
      encodeTree (huffTable weak n) b = some cb → a ≠ b →
      ¬ IsPref ca cb) ∧
    (∀ k, k < (if weak then n else n + 1) → ∃ c,
      encodeTree (huffTable weak n) k = some c ∧
      ∀ rest, decodeTree (huffTable weak n) (c ++ rest)
        = some (k, rest)) := by
  constructor
  · intro a b ca cb ha hb hab
    exact encodeTree_not_pref _ a b ca cb ha hb hab
  · intro k hk
    have hmem : k ∈ leaves (huffTable weak n) := by
      rw [huffTable_mem, huffWeights_length weak n (by omega)]
      exact hk
    obtain ⟨c, hc⟩ := encodeTree_isSome _ k hmem
    exact ⟨c, hc, fun rest => decodeTree_encodeTree _ k c hc rest⟩

/-- Witness for C8: in the non-weak table for n = 2, the codeword of
symbol 1 decodes back to symbol 1, leaving the rest untouched. -/
theorem claim_C8_huffman_witness :
    decodeTree (huffTable false 2)
      ((encodeTree (huffTable false 2) 1).getD [] ++ [true])
      = some (1, [true]) := by
  obtain ⟨c, hc, hd⟩ := (claim_C8_huffman false 2 (by decide)).2 1
    (by decide)
  rw [hc]
  simpa using hd [true]

/-- C9 (amended): encode, locate and skip are deterministic total
functions; encode's recursion depth is bounded by key_len*8
unconditionally (fuel key_len*8+1-depth determines the result), and on
streams encode produced the same fuel bound suffices for skip and for
locate with any query key; each child range is no larger than n
(countLeft at most n).  On arbitrary corrupt streams skip can recurse
deeper than key_len*8 (see the counterexample). -/
theorem claim_C9_termination (weak : Bool) (L : Nat)
    (arr : List (List Nat)) (klen : Nat) :
    (∀ f1 f2 off n base dkpb depth, 1 ≤ f1 → 1 ≤ f2 →
      klen * 8 + 1 ≤ depth + f1 → klen * 8 + 1 ≤ depth + f2 →
      encode_rec weak L arr klen f1 off n base dkpb depth =
        encode_rec weak L arr klen f2 off n base dkpb depth) ∧
    (∀ fuel off n base dkpb depth enc rest key,
      encode_rec weak L arr klen fuel off n base dkpb depth = some enc →
      skip_rec weak L klen fuel (enc ++ rest) off n base dkpb depth
          = some rest ∧
      ∃ r tail, locate_rec weak L klen key fuel (enc ++ rest) off n base
        dkpb depth = some (r, tail)) ∧
    (∀ off n depth, countLeft arr off n depth ≤ n) := by
  refine ⟨encode_rec_fuel weak L arr klen, ?_,
    fun off n depth => countLeft_le arr depth n off⟩
  intro fuel off n base dkpb depth enc rest key henc
  exact ⟨skip_encode_exact weak L arr klen fuel off n base dkpb depth enc
      henc rest,
    locate_encode_defined weak L arr klen key fuel off n base dkpb depth
      enc henc rest⟩

/-- Witness for C9: on the 4-key example, fuel 9 = key_len*8+1 and any
larger fuel give the same encoding, and skip at fuel 9 consumes exactly
the encoded bits. -/
theorem claim_C9_termination_witness :
    encode_rec false 16 exArr 1 9 0 4 0 1 0 =
      encode_rec false 16 exArr 1 12 0 4 0 1 0 ∧
    skip_rec false 16 1 9 ([false, false, true, false, true, true, false,
      true, false, true, true] ++ []) 0 4 0 1 0 = some [] := by
  have h := claim_C9_termination false 16 exArr 1
  exact ⟨h.1 9 12 0 4 0 1 0 (by decide) (by decide) (by decide)
      (by decide),
    (h.2.1 9 0 4 0 1 0 _ [] [0] (by decide)).1⟩

/-- Counterexample for C9 as stated: skip's recursion depth is not
bounded by key_len*8 on arbitrary streams (skip_rec has no depth guard
in the source).  On a corrupt stream of twelve codewords for left = 2
followed by the codeword for left = 1, key_len = 1, skip needs
recursion depth 13 > 8: with fuel key_len*8+1 = 9 it runs out (none),
while with ample fuel it succeeds. -/
theorem claim_C9_counterexample :
    skip_rec false 16 1 9 [false, true, false, true, false, true, false,
      true, false, true, false, true, false, true, false, true, false,
      true, false, true, false, true, false, true, true] 0 2 0 1 0
      = none ∧
    skip_rec false 16 1 40 [false, true, false, true, false, true, false,
      true, false, true, false, true, false, true, false, true, false,
      true, false, true, false, true, false, true, true] 0 2 0 1 0
      = some [] := by
  constructor
  · decide
  · decide

/-- C10: the incremental binomial-weight loop in the trie constructor is
exact in 64-bit unsigned arithmetic for every table size up to the
default limit 16: each running value equals the binomial coefficient,
every division is exact, no product overflows 2^64; in weak mode gen[0]
is exactly 2 and the alphabet has n symbols instead of n+1. -/
theorem claim_C10_weights :
    ∀ n, n < 17 → 2 ≤ n →
      (∀ k, k ≤ n → binomVal n k = Nat.choose n k) ∧
      (∀ k, 1 ≤ k → k ≤ n →
        binomVal n (k - 1) * (n - k + 1) % k = 0 ∧
        binomVal n (k - 1) * (n - k + 1) < 2 ^ 64) ∧
      (weakRow n).headD 0 = 2 ∧ (weakRow n).length = n ∧
      (binomRow n).length = n + 1 := by
  decide

/-- Witness for C10: the central value of the largest default table. -/
theorem claim_C10_weights_witness :
    binomVal 16 8 = Nat.choose 16 8 :=
  (claim_C10_weights 16 (by decide) (by decide)).1 8 (by decide)

end Ectrie
